import Mathlib

/-!
Verification of `phabricator.py` (mozilla-phab-stats): a shallow embedding of
the request/cache/pagination layer and the comment-statistics parser, with
proofs of the behavioural properties stated in the specification.

Python dicts are embedded as association lists (`List (String × _)`) with
first-match lookup and in-place update; generators are embedded as fuelled
list-producing functions; `re` searches are embedded as explicit scanners
over `List Char`.

The file is organised as: all definitions first, then all theorems.
-/

namespace PhabStats

/-! ## Definitions -/

/-! ### Association lists: the embedding of Python `dict`

`assocFind` is `d.get(k)`; `assocPut` is `d[k] = v` (update in place when
the key is present, append otherwise — Python dicts keep insertion order). -/

def assocFind {β : Type} : List (String × β) → String → Option β
  | [], _ => none
  | (k', v) :: rest, k => if k' = k then some v else assocFind rest k

def assocPut {β : Type} : List (String × β) → String → β → List (String × β)
  | [], k, v => [(k, v)]
  | (k', v') :: rest, k, v =>
    if k' = k then (k', v) :: rest else (k', v') :: assocPut rest k v

/-! ### Generic insertion sort with a boolean comparator

The embedding of Python's `sorted(xs, key=...)` (stability is irrelevant to
the properties proved here). -/

def insortBy {α : Type} (le : α → α → Bool) (a : α) : List α → List α
  | [] => [a]
  | b :: rest => if le a b then a :: b :: rest else b :: insortBy le a rest

def sortBy {α : Type} (le : α → α → Bool) : List α → List α
  | [] => []
  | a :: rest => insortBy le a (sortBy le rest)

/-! ### The comment-statistics parser (`parse_comment`, lines 105-118)

`REGEX_TOTAL = re.compile(r'found (\d+) defects?')` and
`REGEX_ANALYZER = re.compile(r'(\d+) defects? found by ([\w\-]+)')` are
embedded as explicit left-to-right scanners over `List Char`.  For both
patterns the greedy `\d+` (and the optional `s`) admit no successful
backtracking — a shorter digit run is necessarily followed by another
digit, never by the space the pattern requires next — so maximal-munch
scanning is exactly the `re` semantics. -/

def isDigitChar (c : Char) : Bool := c.isDigit

/-- The character class `[\w\-]` (ASCII reading of `\w`). -/
def isNameChar (c : Char) : Bool := c.isAlphanum || c = '_' || c = '-'

/-- `int(...)` on a digit string. -/
def digitsToNat (ds : List Char) : Nat :=
  ds.foldl (fun n c => 10 * n + (c.toNat - '0'.toNat)) 0

/-- Removes an expected literal from the head of the input, returning the
remainder on success. -/
def chopLit : List Char → List Char → Option (List Char)
  | [], cs => some cs
  | _ :: _, [] => none
  | l :: ls, c :: cs => if c = l then chopLit ls cs else none

/-- One attempt of `REGEX_TOTAL` anchored at the head of `cs`; returns the
value of group 1 (the digit run). -/
def matchTotalAt (cs : List Char) : Option Nat :=
  (chopLit ("found ").data cs).bind fun cs₁ =>
    if cs₁.takeWhile isDigitChar = [] then none
    else
      (chopLit (" defect").data (cs₁.dropWhile isDigitChar)).map fun _ =>
        digitsToNat (cs₁.takeWhile isDigitChar)

/-- `REGEX_TOTAL.search`: leftmost match wins. -/
def searchTotal : List Char → Option Nat
  | [] => none
  | c :: rest => (matchTotalAt (c :: rest)).or (searchTotal rest)

/-- The optional `s` of `defects?`: consumed exactly when present
(backtracking to the empty alternative can never succeed, since `s` is not
the space the pattern requires next). -/
def chopS : List Char → List Char
  | [] => []
  | c :: t => if c = 's' then t else c :: t

/-- One attempt of `REGEX_ANALYZER` anchored at the head of `cs`; returns
the two groups and the unconsumed remainder. -/
def matchAnalyzerAt (cs : List Char) : Option (Nat × String × List Char) :=
  if cs.takeWhile isDigitChar = [] then none
  else
    (chopLit (" defect").data (cs.dropWhile isDigitChar)).bind fun cs₁ =>
      (chopLit (" found by ").data (chopS cs₁)).bind fun cs₃ =>
        if cs₃.takeWhile isNameChar = [] then none
        else some (digitsToNat (cs.takeWhile isDigitChar),
                   String.mk (cs₃.takeWhile isNameChar),
                   cs₃.dropWhile isNameChar)

/-- `REGEX_ANALYZER.findall`: non-overlapping matches, scanning left to
right and resuming after each match.  Fuelled; one unit of fuel is spent
per character advanced, so `cs.length` fuel always completes the scan. -/
def findAnalyzers : Nat → List Char → List (Nat × String)
  | 0, _ => []
  | _ + 1, [] => []
  | fuel + 1, c :: rest =>
    match matchAnalyzerAt (c :: rest) with
    | some (n, nm, rem) => (n, nm) :: findAnalyzers fuel rem
    | none => findAnalyzers fuel rest

/-- Lines 105-118.  `none` embeds the `AssertionError` raised when
`REGEX_TOTAL` finds no match; otherwise the result is the Python dict
`{name: int(nb) for nb, name in REGEX_ANALYZER.findall(comment)}` followed
by `out['total'] = int(total.group(1))`. -/
def parse_comment (comment : String) : Option (List (String × Nat)) :=
  (searchTotal comment.data).map fun total =>
    assocPut
      ((findAnalyzers comment.data.length comment.data).foldl
        (fun m p => assocPut m p.2 p.1) [])
      "total" total

/-- The text contains a `found <digits> defect` phrase (the language of
`REGEX_TOTAL`, stated independently of the scanner). -/
def hasTotalPhrase (cs : List Char) : Prop :=
  ∃ pre d post, cs = pre ++ ("found ").data ++ d ++ (" defect").data ++ post
    ∧ d ≠ [] ∧ (∀ c ∈ d, isDigitChar c = true)

/-- The text contains a `<digits> defect(s) found by <name>` phrase for the
given analyzer name (the language of `REGEX_ANALYZER`, stated independently
of the scanner). -/
def hasAnalyzerPhrase (name : String) (cs : List Char) : Prop :=
  ∃ pre d sOpt post,
    cs = pre ++ d ++ (" defect").data ++ sOpt ++ (" found by ").data ++ name.data ++ post
    ∧ d ≠ [] ∧ (∀ c ∈ d, isDigitChar c = true)
    ∧ (sOpt = [] ∨ sOpt = ['s'])
    ∧ name.data ≠ [] ∧ (∀ c ∈ name.data, isNameChar c = true)

/-! ### Cache and request (`request`, lines 18-56)

The on-disk cache (`CACHE/{h}.json`) is modelled as an association list
from fingerprint to stored response body; `os.path.exists` + `json.load`
is `cacheGet`, the file write is `cachePut`.  The decoded JSON envelope
`{error_code, error_info, result}` is `ApiResponse`; we store the decoded
value (writing `resp.content` and re-decoding on a later hit round-trips
through JSON). -/

structure ApiResponse (ρ : Type) where
  error_code : Option String
  error_info : String
  result : ρ

def cacheGet {ρ : Type} (cache : List (String × ρ)) (fp : String) : Option ρ :=
  assocFind cache fp

def cachePut {ρ : Type} (cache : List (String × ρ)) (fp : String) (body : ρ) :
    List (String × ρ) :=
  assocPut cache fp body

/-- Lines 29-56 of `request`, state-passing over the cache.  `remote` is
the decoded body the transport returns for this request (after
`raise_for_status`); `fp` is the request fingerprint.  The `Except.error`
is the `AssertionError` on a non-null `error_code`.  On a cache hit the
stored body is returned without re-validation. -/
def request {ρ : Type} (remote : ApiResponse ρ) (cache : List (String × ApiResponse ρ))
    (fp : String) : Except String (ApiResponse ρ × List (String × ApiResponse ρ)) :=
  match cacheGet cache fp with
  | some body => .ok (body, cache)
  | none =>
    match remote.error_code with
    | some _ => .error remote.error_info
    | none => .ok (remote, cachePut cache fp remote)

/-- Every response stored in the cache is error-free. -/
def cacheWF {ρ : Type} (cache : List (String × ApiResponse ρ)) : Prop :=
  ∀ fp r, cacheGet cache fp = some r → r.error_code = none

/-! ### The feed paginator (`feed`, lines 59-80)

A `FeedStory` is one entry of `data['result']`: a chronological key and
the `data` payload.  The remote service is abstracted as the list of
stories (`data['result'].values()`, in arbitrary dict order) returned for
each cursor value.  The generator is fuelled, one unit per page request. -/

structure FeedStory (α : Type) where
  chronologicalKey : Nat
  data : α

/-- The sort key of line 74: `key=lambda x: x['chronologicalKey']`. -/
def storyLe {α : Type} (x y : FeedStory α) : Bool :=
  decide (x.chronologicalKey ≤ y.chronologicalKey)

/-- `results[0]['chronologicalKey']` (line 80); only evaluated on
non-empty pages, the `[]` default is never reached. -/
def headKey {α : Type} : List (FeedStory α) → Nat
  | [] => 0
  | s :: _ => s.chronologicalKey

/-- Lines 65-80: the pagination loop, yielding whole stories (the source
yields `story['data']`; see `feed`).  Each iteration requests the page at
the current cursor, stops on an empty page, emits the page sorted
ascending by chronological key, and rewinds the cursor to the first
(smallest) key of the sorted page. -/
def feedAux {α : Type} (server : Option Nat → List (FeedStory α)) :
    Nat → Option Nat → List (FeedStory α)
  | 0, _ => []
  | fuel + 1, key =>
    if (server key).isEmpty then []
    else
      sortBy storyLe (server key)
        ++ feedAux server fuel (some (headKey (sortBy storyLe (server key))))

/-- The generator as the source writes it: `yield story['data']`. -/
def feed {α : Type} (server : Option Nat → List (FeedStory α)) (fuel : Nat) : List α :=
  (feedAux server fuel none).map FeedStory.data

/-- The chronological keys of the emitted stories. -/
def feedKeys {α : Type} (server : Option Nat → List (FeedStory α)) (fuel : Nat)
    (key : Option Nat) : List Nat :=
  (feedAux server fuel key).map FeedStory.chronologicalKey

/-- A two-page feed server obeying the advancement discipline of §4.3 of
the spec: every page requested at cursor `k` holds only keys strictly
below `k`, keys are distinct, and pagination reaches the feed origin. -/
def feedServerCex : Option Nat → List (FeedStory Nat)
  | none => [⟨10, 10⟩, ⟨8, 8⟩, ⟨9, 9⟩]
  | some k => if k = 8 then [⟨7, 7⟩, ⟨5, 5⟩, ⟨6, 6⟩] else []

/-! ### The comments paginator (`comments`, lines 82-103)

A `Transaction` is one element of `data['result']['data']`; a `TxPage` is
one response: the transaction list plus the service-provided cursor
`data['result']['cursor']['after']`.  The remote service is abstracted as
the page returned for each requested cursor value. -/

structure Transaction (γ : Type) where
  type : String
  authorPHID : String
  comments : List γ

structure TxPage (γ : Type) where
  data : List (Transaction γ)
  cursorAfter : Option String

/-- The filter of line 94: `x['type'] == 'comment' and x['authorPHID'] ==
author_phid`. -/
def isAuthorComment {γ : Type} (author : String) (t : Transaction γ) : Bool :=
  t.type == "comment" && t.authorPHID == author

/-- Lines 94-98: one page's emission — the surviving transactions'
comments, each transaction's comments in their own order. -/
def pageEmit {γ : Type} (author : String) (txs : List (Transaction γ)) : List γ :=
  (txs.filter (isAuthorComment author)).flatMap Transaction.comments

/-- Lines 87-103: the pagination loop, returning the yielded comments and
the trace of cursor values passed to `request` (one entry per iteration).
An empty `data` list terminates (lines 92-93) before the cursor is read;
a null `after` cursor terminates after the page is emitted (lines
101-103). -/
def commentsRun {γ : Type} (server : Option String → TxPage γ) (author : String) :
    Nat → Option String → List γ × List (Option String)
  | 0, _ => ([], [])
  | fuel + 1, after =>
    if (server after).data.isEmpty then ([], [after])
    else
      match (server after).cursorAfter with
      | none => (pageEmit author (server after).data, [after])
      | some a =>
        (pageEmit author (server after).data ++ (commentsRun server author fuel (some a)).1,
         after :: (commentsRun server author fuel (some a)).2)

/-- The generator as the source writes it: the yielded comment values. -/
def comments {γ : Type} (server : Option String → TxPage γ) (author : String)
    (fuel : Nat) : List γ :=
  (commentsRun server author fuel none).1

/-- The trace of cursors requested from the service. -/
def commentsCursors {γ : Type} (server : Option String → TxPage γ) (author : String)
    (fuel : Nat) (after : Option String) : List (Option String) :=
  (commentsRun server author fuel after).2

/-- A service response with an empty page but a non-null cursor. -/
def cServerEmptyPage : Option String → TxPage Nat :=
  fun _ => ⟨[], some "c"⟩

/-- A two-page transaction-search service ending with a null cursor. -/
def cServerTwoPages : Option String → TxPage Nat :=
  fun cur =>
    if cur = none then ⟨[⟨"comment", "a", [1, 2]⟩], some "p2"⟩
    else if cur = some "p2" then ⟨[⟨"comment", "a", [3]⟩], none⟩
    else ⟨[], none⟩

/-! ### Request fingerprinting (`request`, lines 22-31)

`payload = url + json.dumps(params, sort_keys=True)` followed by
`hashlib.md5(payload).hexdigest()`.  JSON values are embedded as `Json`
(the value shapes this program passes: null, strings, arrays, objects);
`dumps` follows `json.dumps(·, sort_keys=True)`: default separators
`", "` and `": "`, object keys sorted (code-point lexicographic, Python
string order) at every nesting level, strings quoted with `"` and `\`
escaped.  The md5 digest is abstracted as a function parameter `h`;
collision-freeness of md5 on the payloads at hand is the modelling
assumption under which fingerprint distinctness is stated. -/

inductive Json : Type where
  | null : Json
  | str : String → Json
  | arr : List Json → Json
  | obj : List (String × Json) → Json

/-- Code-point lexicographic order on character lists: Python `<` on
strings. -/
def lexLt : List Char → List Char → Bool
  | [], [] => false
  | [], _ :: _ => true
  | _ :: _, [] => false
  | a :: as, b :: bs =>
    if a.toNat < b.toNat then true
    else if b.toNat < a.toNat then false
    else lexLt as bs

/-- The key order used by `sort_keys=True`. -/
def keyLe (a b : String × Json) : Bool :=
  lexLt a.1.data b.1.data || a.1 == b.1

/-! The canonical form of a JSON value: every object's fields sorted by
key.  `json.dumps(·, sort_keys=True)` serialises exactly this form, and a
Python dict is identified with its canonical form (its pairs carry no
order). -/
mutual

def canon : Json → Json
  | .null => .null
  | .str s => .str s
  | .arr xs => .arr (canonList xs)
  | .obj kvs => .obj (sortBy keyLe (canonFields kvs))

def canonList : List Json → List Json
  | [] => []
  | x :: xs => canon x :: canonList xs

def canonFields : List (String × Json) → List (String × Json)
  | [] => []
  | kv :: rest => (kv.1, canon kv.2) :: canonFields rest

end

/-- JSON string escaping (`"` and `\`; other characters of the strings
this program handles are emitted verbatim). -/
def esc1 (c : Char) : List Char :=
  if c = '"' ∨ c = '\\' then ['\\', c] else [c]

def escChars (cs : List Char) : List Char :=
  cs.flatMap esc1

def strQuote (s : String) : List Char :=
  '"' :: escChars s.data ++ ['"']

/-! Serialisation of an (already canonical) value, with `json.dumps`
default separators. -/
mutual

def serV : Json → List Char
  | .null => ['n', 'u', 'l', 'l']
  | .str s => strQuote s
  | .arr xs => '[' :: serElems xs ++ [']']
  | .obj kvs => '\x7b' :: serFields kvs ++ ['\x7d']

def serElems : List Json → List Char
  | [] => []
  | [x] => serV x
  | x :: y :: ys => serV x ++ ',' :: ' ' :: serElems (y :: ys)

def serFields : List (String × Json) → List Char
  | [] => []
  | [kv] => strQuote kv.1 ++ ':' :: ' ' :: serV kv.2
  | kv :: kv' :: rest =>
    (strQuote kv.1 ++ ':' :: ' ' :: serV kv.2) ++ ',' :: ' ' :: serFields (kv' :: rest)

end

/-- `json.dumps(v, sort_keys=True)` as a character list. -/
def dumps (v : Json) : List Char := serV (canon v)

def BASE_URL : String := "https://phabricator.services.mozilla.com/api/"

/-- Line 30: `url + json.dumps(params, sort_keys=True)`, for the full
parameter dict (the `__conduit__` entry included). -/
def payloadChars (method : String) (params : List (String × Json)) : List Char :=
  (BASE_URL ++ method).data ++ dumps (.obj params)

/-- Lines 25-27: `params['__conduit__'] = {'token': TOKEN}`. -/
def conduitEntry (token : String) : String × Json :=
  ("__conduit__", .obj [("token", .str token)])

/-- Lines 25-31: conduit injection, then the digest of the canonical
payload; the md5 hex digest is abstracted as `h`. -/
def request_fingerprint (h : List Char → String) (token : String) (method : String)
    (params : List (String × Json)) : String :=
  h (payloadChars method (conduitEntry token :: params))

/-- Inverse of `strQuote` (after the opening quote): unescapes up to the
closing quote, returning the string's characters and the remainder. -/
def parseStrBody : List Char → Option (List Char × List Char)
  | [] => none
  | c :: rest =>
    if c = '\\' then
      match rest with
      | [] => none
      | e :: rest' =>
        if e = '"' ∨ e = '\\' then (parseStrBody rest').map (fun p => (e :: p.1, p.2))
        else none
    else if c = '"' then some ([], rest)
    else (parseStrBody rest).map (fun p => (c :: p.1, p.2))

/-! A fuelled parser inverting `serV`; `parseElems` and `parseFields`
consume through the closing bracket. -/
mutual

def parseVal : Nat → List Char → Option (Json × List Char)
  | 0, _ => none
  | fuel + 1, cs =>
    match cs with
    | [] => none
    | c :: rest =>
      if c = 'n' then (chopLit ['u', 'l', 'l'] rest).map (fun r => (.null, r))
      else if c = '"' then (parseStrBody rest).map (fun p => (.str (String.mk p.1), p.2))
      else if c = '[' then
        if rest.head? = some ']' then some (.arr [], rest.tail)
        else (parseElems fuel rest).map (fun p => (.arr p.1, p.2))
      else if c = '\x7b' then
        if rest.head? = some '\x7d' then some (.obj [], rest.tail)
        else (parseFields fuel rest).map (fun p => (.obj p.1, p.2))
      else none

def parseElems : Nat → List Char → Option (List Json × List Char)
  | 0, _ => none
  | fuel + 1, cs =>
    (parseVal fuel cs).bind fun p =>
      match p.2 with
      | [] => none
      | c :: rest =>
        if c = ']' then some ([p.1], rest)
        else if c = ',' then
          match rest with
          | [] => none
          | c' :: rest' =>
            if c' = ' ' then (parseElems fuel rest').map (fun q => (p.1 :: q.1, q.2))
            else none
        else none

def parseFields : Nat → List Char → Option (List (String × Json) × List Char)
  | 0, _ => none
  | fuel + 1, cs =>
    match cs with
    | [] => none
    | c :: rest =>
      if c = '"' then
        (parseStrBody rest).bind fun kp =>
          match kp.2 with
          | [] => none
          | c₁ :: r₁ =>
            if c₁ = ':' then
              match r₁ with
              | [] => none
              | c₂ :: r₂ =>
                if c₂ = ' ' then
                  (parseVal fuel r₂).bind fun vp =>
                    match vp.2 with
                    | [] => none
                    | c₃ :: r₃ =>
                      if c₃ = '\x7d' then some ([(String.mk kp.1, vp.1)], r₃)
                      else if c₃ = ',' then
                        match r₃ with
                        | [] => none
                        | c₄ :: r₄ =>
                          if c₄ = ' ' then
                            (parseFields fuel r₄).map
                              (fun q => ((String.mk kp.1, vp.1) :: q.1, q.2))
                          else none
                      else none
                else none
            else none
      else none

end

/-! Sizes giving fuel bounds for the parser. -/
mutual

def sizeV : Json → Nat
  | .null => 1
  | .str _ => 1
  | .arr xs => 1 + sizeElems xs
  | .obj kvs => 1 + sizeFields kvs

def sizeElems : List Json → Nat
  | [] => 1
  | x :: xs => 1 + sizeV x + sizeElems xs

def sizeFields : List (String × Json) → Nat
  | [] => 1
  | kv :: rest => 1 + sizeV kv.2 + sizeFields rest

end

/-! ## Theorems -/

/-! ### Association-list lemmas -/

theorem assocFind_assocPut_same {β : Type} (m : List (String × β)) (k : String) (v : β) :
    assocFind (assocPut m k v) k = some v := by
  induction m with
  | nil => simp [assocPut, assocFind]
  | cons kv rest ih =>
    obtain ⟨k', v'⟩ := kv
    by_cases h : k' = k
    · simp [assocPut, assocFind, h]
    · simp [assocPut, assocFind, h, ih]

theorem assocFind_assocPut_other {β : Type} (m : List (String × β)) (k k' : String) (v : β)
    (hne : k ≠ k') : assocFind (assocPut m k v) k' = assocFind m k' := by
  induction m with
  | nil => simp [assocPut, assocFind, hne]
  | cons kv rest ih =>
    obtain ⟨k₀, v₀⟩ := kv
    by_cases h : k₀ = k
    · have hk' : k₀ ≠ k' := fun hh => hne (h.symm.trans hh)
      simp [assocPut, assocFind, h, hk', hne]
    · by_cases h' : k₀ = k'
      · simp [assocPut, assocFind, h, h', Ne.symm hne]
      · simp [assocPut, assocFind, h, h', ih]

theorem assocFind_none_of_not_mem {β : Type} (m : List (String × β)) (k : String)
    (h : k ∉ m.map Prod.fst) : assocFind m k = none := by
  induction m with
  | nil => rfl
  | cons kv rest ih =>
    obtain ⟨k', v'⟩ := kv
    simp only [List.map_cons, List.mem_cons] at h
    push_neg at h
    have hk : k' ≠ k := fun hh => h.1 hh.symm
    simp [assocFind, hk, ih h.2]

/-! ### Sorting lemmas -/

theorem insortBy_perm {α : Type} (le : α → α → Bool) (a : α) (l : List α) :
    (insortBy le a l).Perm (a :: l) := by
  induction l with
  | nil => exact List.Perm.refl _
  | cons b rest ih =>
    by_cases h : le a b
    · simp [insortBy, h]
    · simp only [insortBy, h, if_false, Bool.false_eq_true, if_neg, not_false_iff]
      exact (ih.cons b).trans (List.Perm.swap a b rest)

theorem sortBy_perm {α : Type} (le : α → α → Bool) (l : List α) :
    (sortBy le l).Perm l := by
  induction l with
  | nil => exact List.Perm.refl _
  | cons a rest ih =>
    exact (insortBy_perm le a (sortBy le rest)).trans (ih.cons a)

theorem insortBy_pairwise {α : Type} (le : α → α → Bool)
    (htot : ∀ x y, le x y = true ∨ le y x = true)
    (htrans : ∀ x y z, le x y = true → le y z = true → le x z = true)
    (a : α) (l : List α) (hl : l.Pairwise (le · · = true)) :
    (insortBy le a l).Pairwise (le · · = true) := by
  induction l with
  | nil => simp [insortBy]
  | cons b rest ih =>
    rcases List.pairwise_cons.mp hl with ⟨hb, hrest⟩
    by_cases h : le a b
    · simp only [insortBy, h, if_pos]
      refine List.pairwise_cons.mpr ⟨?_, hl⟩
      intro x hx
      rcases List.mem_cons.mp hx with rfl | hx
      · exact h
      · exact htrans a b x h (hb x hx)
    · simp only [insortBy, h, if_false, Bool.false_eq_true, if_neg, not_false_iff]
      refine List.pairwise_cons.mpr ⟨?_, ih hrest⟩
      intro x hx
      have hx' := (insortBy_perm le a rest).mem_iff.mp hx
      rcases List.mem_cons.mp hx' with hxa | hx'
      · rw [hxa]
        rcases htot a b with hab | hba
        · exact absurd hab h
        · exact hba
      · exact hb x hx'

theorem sortBy_pairwise {α : Type} (le : α → α → Bool)
    (htot : ∀ x y, le x y = true ∨ le y x = true)
    (htrans : ∀ x y z, le x y = true → le y z = true → le x z = true)
    (l : List α) : (sortBy le l).Pairwise (le · · = true) := by
  induction l with
  | nil => simp [sortBy]
  | cons a rest ih => exact insortBy_pairwise le htot htrans a (sortBy le rest) ih

/-- The head of a sorted list is a lower bound for every element of the
original list (for a total, transitive comparator). -/
theorem sortBy_head_le {α : Type} (le : α → α → Bool)
    (htot : ∀ x y, le x y = true ∨ le y x = true)
    (htrans : ∀ x y z, le x y = true → le y z = true → le x z = true)
    (l : List α) (a : α) (rest : List α) (hs : sortBy le l = a :: rest) :
    ∀ x ∈ l, le a x = true := by
  intro x hx
  have hp := sortBy_pairwise le htot htrans l
  rw [hs] at hp
  have hx' : x ∈ a :: rest := by
    have := (sortBy_perm le l).symm.mem_iff.mp hx
    rwa [hs] at this
  rcases List.mem_cons.mp hx' with rfl | hx'
  · rcases htot x x with h | h <;> exact h
  · exact (List.pairwise_cons.mp hp).1 x hx'

/-! ### Parser lemmas -/

theorem chopLit_eq_append : ∀ (lit cs rest : List Char),
    chopLit lit cs = some rest → cs = lit ++ rest := by
  intro lit
  induction lit with
  | nil =>
    intro cs rest h
    simpa [chopLit] using h
  | cons l ls ih =>
    intro cs rest h
    cases cs with
    | nil => simp [chopLit] at h
    | cons c cs' =>
      by_cases hc : c = l
      · subst hc
        simp only [chopLit, if_pos rfl] at h
        rw [List.cons_append, ih cs' rest h]
      · simp [chopLit, hc] at h

theorem chopLit_append (lit rest : List Char) : chopLit lit (lit ++ rest) = some rest := by
  induction lit with
  | nil => rfl
  | cons l ls ih => simp [chopLit, ih]

theorem takeWhile_append_eq {α : Type} (P : α → Bool) :
    ∀ (d : List α) (c : α) (rest : List α), (∀ x ∈ d, P x = true) → P c = false →
      (d ++ c :: rest).takeWhile P = d ∧ (d ++ c :: rest).dropWhile P = c :: rest := by
  intro d
  induction d with
  | nil =>
    intro c rest _ hc
    constructor <;> simp [List.takeWhile_cons, List.dropWhile_cons, hc]
  | cons a d' ih =>
    intro c rest hd hc
    have ha : P a = true := hd a (by simp)
    have ih' := ih c rest (fun x hx => hd x (by simp [hx])) hc
    constructor
    · simp [List.takeWhile_cons, ha, ih'.1]
    · simp [List.dropWhile_cons, ha, ih'.2]

theorem chopS_decomp (cs : List Char) :
    ∃ sOpt, cs = sOpt ++ chopS cs ∧ (sOpt = [] ∨ sOpt = ['s']) := by
  cases cs with
  | nil => exact ⟨[], rfl, Or.inl rfl⟩
  | cons c t =>
    by_cases hc : c = 's'
    · subst hc
      exact ⟨['s'], by simp [chopS], Or.inr rfl⟩
    · exact ⟨[], by simp [chopS, hc], Or.inl rfl⟩

theorem matchTotalAt_some (cs : List Char) (n : Nat) (h : matchTotalAt cs = some n) :
    ∃ d post, cs = ("found ").data ++ d ++ (" defect").data ++ post
      ∧ d ≠ [] ∧ (∀ c ∈ d, isDigitChar c = true) ∧ n = digitsToNat d := by
  unfold matchTotalAt at h
  cases h₁ : chopLit ("found ").data cs with
  | none => rw [h₁] at h; simp at h
  | some cs₁ =>
    rw [h₁, Option.some_bind] at h
    by_cases hd : cs₁.takeWhile isDigitChar = []
    · rw [if_pos hd] at h; simp at h
    · rw [if_neg hd] at h
      cases h₂ : chopLit (" defect").data (cs₁.dropWhile isDigitChar) with
      | none => rw [h₂] at h; simp at h
      | some post =>
        rw [h₂, Option.map_some'] at h
        refine ⟨cs₁.takeWhile isDigitChar, post, ?_, hd, ?_, ?_⟩
        · have e1 := chopLit_eq_append _ _ _ h₁
          have e2 := chopLit_eq_append _ _ _ h₂
          have e3 : cs₁ = cs₁.takeWhile isDigitChar ++ ((" defect").data ++ post) := by
            conv_lhs => rw [← List.takeWhile_append_dropWhile (p := isDigitChar) (l := cs₁)]
            rw [e2]
          rw [e1]
          conv_lhs => rw [e3]
          simp
        · intro c hc; exact List.mem_takeWhile_imp hc
        · exact (Option.some.inj h).symm

theorem matchTotalAt_of_phrase (d post : List Char) (hd : d ≠ [])
    (hdig : ∀ c ∈ d, isDigitChar c = true) :
    matchTotalAt (("found ").data ++ d ++ (" defect").data ++ post) = some (digitsToNat d) := by
  have hsplit : (" defect").data = ' ' :: ("defect").data := rfl
  have harr : ("found ").data ++ d ++ (" defect").data ++ post =
      ("found ").data ++ (d ++ ' ' :: (("defect").data ++ post)) := by
    rw [hsplit]; simp
  have hwhile := takeWhile_append_eq isDigitChar d ' ' (("defect").data ++ post) hdig (by decide)
  unfold matchTotalAt
  rw [harr, chopLit_append, Option.some_bind, hwhile.1, if_neg hd, hwhile.2]
  have hsp2 : (' ' :: (("defect").data ++ post)) = (" defect").data ++ post := by
    rw [hsplit]; simp
  rw [hsp2, chopLit_append, Option.map_some']

theorem searchTotal_some_phrase : ∀ (cs : List Char) (n : Nat),
    searchTotal cs = some n → hasTotalPhrase cs := by
  intro cs
  induction cs with
  | nil => intro n h; simp [searchTotal] at h
  | cons c rest ih =>
    intro n h
    cases hm : matchTotalAt (c :: rest) with
    | some m =>
      obtain ⟨d, post, he, hd, hdig, _⟩ := matchTotalAt_some _ _ hm
      exact ⟨[], d, post, by simpa using he, hd, hdig⟩
    | none =>
      simp only [searchTotal, hm, Option.none_or] at h
      obtain ⟨pre, d, post, he, hd, hdig⟩ := ih n h
      exact ⟨c :: pre, d, post, by simp [he], hd, hdig⟩

theorem searchTotal_ne_none_of_match (cs : List Char) (n : Nat)
    (hm : matchTotalAt cs = some n) : searchTotal cs ≠ none := by
  cases cs with
  | nil =>
    have hz : chopLit ("found ").data ([] : List Char) = none := rfl
    simp [matchTotalAt, hz] at hm
  | cons c rest =>
    simp only [searchTotal, hm]
    exact fun hh => Option.noConfusion hh

theorem searchTotal_ne_none_of_phrase (cs : List Char) (h : hasTotalPhrase cs) :
    searchTotal cs ≠ none := by
  obtain ⟨pre, d, post, he, hd, hdig⟩ := h
  subst he
  induction pre with
  | nil =>
    apply searchTotal_ne_none_of_match _ (digitsToNat d)
    simpa using matchTotalAt_of_phrase d post hd hdig
  | cons c pre' ih =>
    simp only [List.cons_append, searchTotal]
    cases hm : matchTotalAt
        (c :: (pre' ++ ("found ").data ++ d ++ (" defect").data ++ post)) with
    | some m => simp
    | none => simpa using ih

theorem matchAnalyzerAt_some (cs : List Char) (n : Nat) (nm : String) (rem : List Char)
    (h : matchAnalyzerAt cs = some (n, nm, rem)) :
    ∃ d sOpt, cs = d ++ (" defect").data ++ sOpt ++ (" found by ").data ++ nm.data ++ rem
      ∧ d ≠ [] ∧ (∀ c ∈ d, isDigitChar c = true)
      ∧ (sOpt = [] ∨ sOpt = ['s'])
      ∧ nm.data ≠ [] ∧ (∀ c ∈ nm.data, isNameChar c = true)
      ∧ n = digitsToNat d := by
  unfold matchAnalyzerAt at h
  by_cases hd0 : cs.takeWhile isDigitChar = []
  · rw [if_pos hd0] at h; simp at h
  · rw [if_neg hd0] at h
    cases h₂ : chopLit (" defect").data (cs.dropWhile isDigitChar) with
    | none => rw [h₂] at h; simp at h
    | some cs₁ =>
      rw [h₂, Option.some_bind] at h
      cases h₃ : chopLit (" found by ").data (chopS cs₁) with
      | none => rw [h₃] at h; simp at h
      | some cs₃ =>
        rw [h₃, Option.some_bind] at h
        by_cases hnm : cs₃.takeWhile isNameChar = []
        · rw [if_pos hnm] at h; simp at h
        · rw [if_neg hnm] at h
          simp only [Option.some.injEq, Prod.mk.injEq] at h
          obtain ⟨hn, hnm2, hrem⟩ := h
          subst hnm2
          subst hrem
          obtain ⟨sOpt, hso, hsOptAlt⟩ := chopS_decomp cs₁
          refine ⟨cs.takeWhile isDigitChar, sOpt, ?_, hd0, ?_, hsOptAlt, hnm, ?_, hn.symm⟩
          · have e2 := chopLit_eq_append _ _ _ h₂
            have e3 := chopLit_eq_append _ _ _ h₃
            calc cs = cs.takeWhile isDigitChar ++ cs.dropWhile isDigitChar :=
                  (List.takeWhile_append_dropWhile _ _).symm
              _ = cs.takeWhile isDigitChar ++ ((" defect").data ++ cs₁) := by rw [e2]
              _ = cs.takeWhile isDigitChar ++ ((" defect").data ++ (sOpt ++ chopS cs₁)) := by
                  rw [← hso]
              _ = cs.takeWhile isDigitChar ++
                    ((" defect").data ++ (sOpt ++ ((" found by ").data ++ cs₃))) := by
                  rw [e3]
              _ = cs.takeWhile isDigitChar ++
                    ((" defect").data ++ (sOpt ++ ((" found by ").data ++
                      (cs₃.takeWhile isNameChar ++ cs₃.dropWhile isNameChar)))) := by
                  rw [List.takeWhile_append_dropWhile]
              _ = _ := by simp
          · intro c hc; exact List.mem_takeWhile_imp hc
          · intro c hc; exact List.mem_takeWhile_imp hc

theorem hasAnalyzerPhrase_append (name : String) (pre cs : List Char)
    (h : hasAnalyzerPhrase name cs) : hasAnalyzerPhrase name (pre ++ cs) := by
  obtain ⟨pre', d, sOpt, post, he, hd, hdig, hs, hn0, hnc⟩ := h
  exact ⟨pre ++ pre', d, sOpt, post, by rw [he]; simp, hd, hdig, hs, hn0, hnc⟩

theorem mem_findAnalyzers : ∀ (fuel : Nat) (cs : List Char) (p : Nat × String),
    p ∈ findAnalyzers fuel cs → hasAnalyzerPhrase p.2 cs := by
  intro fuel
  induction fuel with
  | zero => intro cs p hp; simp [findAnalyzers] at hp
  | succ f ih =>
    intro cs p hp
    cases cs with
    | nil => simp [findAnalyzers] at hp
    | cons c rest =>
      cases hm : matchAnalyzerAt (c :: rest) with
      | some triple =>
        obtain ⟨n, nm, rem⟩ := triple
        simp only [findAnalyzers, hm] at hp
        obtain ⟨d, sOpt, he, hd, hdig, hs, hn0, hnc, _⟩ := matchAnalyzerAt_some _ _ _ _ hm
        rcases List.mem_cons.mp hp with hph | hpt
        · subst hph
          exact ⟨[], d, sOpt, rem, by simpa using he, hd, hdig, hs, hn0, hnc⟩
        · have hphr := ih rem p hpt
          rw [he]
          exact hasAnalyzerPhrase_append p.2
            (d ++ (" defect").data ++ sOpt ++ (" found by ").data ++ nm.data) rem hphr
      | none =>
        simp only [findAnalyzers, hm] at hp
        simpa using hasAnalyzerPhrase_append p.2 [c] rest (ih rest p hp)

theorem find?_append_or {α : Type} (p : α → Bool) (l₁ l₂ : List α) :
    (l₁ ++ l₂).find? p = (l₁.find? p).or (l₂.find? p) := by
  induction l₁ with
  | nil => simp
  | cons a t ih =>
    by_cases ha : p a = true
    · simp [List.find?_cons_of_pos _ ha]
    · rw [List.cons_append, List.find?_cons_of_neg _ (by simp [ha]),
        List.find?_cons_of_neg _ (by simp [ha]), ih]

theorem assocFind_foldPut (k : String) : ∀ (l : List (Nat × String)) (init : List (String × Nat)),
    assocFind (l.foldl (fun m p => assocPut m p.2 p.1) init) k =
      ((l.reverse.find? (fun p => p.2 == k)).map Prod.fst).or (assocFind init k) := by
  intro l
  induction l with
  | nil => intro init; simp
  | cons p t ih =>
    intro init
    rw [List.foldl_cons, ih, List.reverse_cons, find?_append_or]
    by_cases hk : p.2 = k
    · have h1 : ([p].find? (fun q => q.2 == k)) = some p :=
        List.find?_cons_of_pos _ (by simp [hk])
      rw [h1]
      cases ht : t.reverse.find? (fun q => q.2 == k) with
      | some q => simp
      | none =>
        rw [← hk, assocFind_assocPut_same]
        simp
    · have h1 : ([p].find? (fun q => q.2 == k)) = none := by
        rw [List.find?_cons_of_neg _ (by simp [hk])]
        exact List.find?_nil
      rw [h1, assocFind_assocPut_other _ _ _ _ hk]
      cases ht : t.reverse.find? (fun q => q.2 == k) with
      | some q => simp
      | none => simp

/-! ### Claims C7, C8, C9 -/

/-- C7: `parse_comment` applied to the exact text
`"found 3 defects. 2 defects found by clang-tidy. 1 defect found by infer"`
returns the mapping `{clang-tidy: 2, infer: 1, total: 3}`; every successful
parse contains a `total` key; and an analyzer key (other than `total`) is
present only when its `<N> defect(s) found by <name>` phrase occurs in the
text. -/
theorem C7_parse_example :
    parse_comment "found 3 defects. 2 defects found by clang-tidy. 1 defect found by infer" =
      some [("clang-tidy", 2), ("infer", 1), ("total", 3)]
    ∧ (∀ comment out, parse_comment comment = some out →
        assocFind out "total" ≠ none)
    ∧ (∀ comment out name, parse_comment comment = some out → name ≠ "total" →
        assocFind out name ≠ none → hasAnalyzerPhrase name comment.data) := by
  refine ⟨by rfl, ?_, ?_⟩
  · intro comment out hp
    unfold parse_comment at hp
    cases hs : searchTotal comment.data with
    | none => rw [hs, Option.map_none'] at hp; exact Option.noConfusion hp
    | some t =>
      rw [hs, Option.map_some'] at hp
      rw [← Option.some.inj hp, assocFind_assocPut_same]
      exact fun hh => Option.noConfusion hh
  · intro comment out name hp hname hfind
    unfold parse_comment at hp
    cases hs : searchTotal comment.data with
    | none => rw [hs, Option.map_none'] at hp; exact Option.noConfusion hp
    | some t =>
      rw [hs, Option.map_some'] at hp
      rw [← Option.some.inj hp, assocFind_assocPut_other _ _ _ _ (Ne.symm hname),
        assocFind_foldPut] at hfind
      simp only [assocFind, Option.or_none] at hfind
      cases hq : (findAnalyzers comment.data.length comment.data).reverse.find?
          (fun p => p.2 == name) with
      | none => rw [hq] at hfind; simp at hfind
      | some q =>
        have hqname : q.2 = name := by simpa using List.find?_some hq
        have hqmem : q ∈ findAnalyzers comment.data.length comment.data :=
          List.mem_reverse.mp (List.mem_of_find?_eq_some hq)
        rw [← hqname]
        exact mem_findAnalyzers _ _ q hqmem

/-- Witness for C7: its universally quantified parts applied to the
example text. -/
theorem C7_witness :
    hasAnalyzerPhrase "infer"
      ("found 3 defects. 2 defects found by clang-tidy. 1 defect found by infer".data) :=
  C7_parse_example.2.2
    "found 3 defects. 2 defects found by clang-tidy. 1 defect found by infer"
    [("clang-tidy", 2), ("infer", 1), ("total", 3)] "infer"
    C7_parse_example.1 (by decide) (by decide)

/-- C8: a comment with no `found <N> defect(s)` phrase makes `parse_comment`
fail (the embedded `AssertionError`, i.e. `none`), and the failure cannot
occur when the phrase is present. -/
theorem C8_total_phrase_required (comment : String) :
    (¬ hasTotalPhrase comment.data → parse_comment comment = none)
    ∧ (hasTotalPhrase comment.data → parse_comment comment ≠ none) := by
  constructor
  · intro hnp
    unfold parse_comment
    cases hs : searchTotal comment.data with
    | none => rw [Option.map_none']
    | some n => exact absurd (searchTotal_some_phrase _ _ hs) hnp
  · intro hp hnone
    unfold parse_comment at hnone
    cases hs : searchTotal comment.data with
    | none => exact searchTotal_ne_none_of_phrase _ hp hs
    | some n => rw [hs, Option.map_some'] at hnone; exact Option.noConfusion hnone

/-- Witness for C8: a phrase-free text parses to `none`; a text with the
phrase does not fail. -/
theorem C8_witness :
    parse_comment "merge approved" = none ∧ parse_comment "found 2 defects" ≠ none := by
  constructor
  · exact (C8_total_phrase_required "merge approved").1
      (fun hp => searchTotal_ne_none_of_phrase _ hp (by rfl))
  · exact (C8_total_phrase_required "found 2 defects").2
      ⟨[], ['2'], ['s'], by rfl, by decide, by decide⟩

/-- C9: for an analyzer name occurring several times, the parsed count is
the one of the latest-occurring phrase — the first match of the reversed
match list — i.e. map-overwrite semantics, not a sum. -/
theorem C9_last_match_wins (comment : String) (out : List (String × Nat)) (name : String)
    (hp : parse_comment comment = some out) (hname : name ≠ "total") :
    assocFind out name =
      ((findAnalyzers comment.data.length comment.data).reverse.find?
        (fun p => p.2 == name)).map Prod.fst := by
  unfold parse_comment at hp
  cases hs : searchTotal comment.data with
  | none => rw [hs, Option.map_none'] at hp; exact Option.noConfusion hp
  | some t =>
    rw [hs, Option.map_some'] at hp
    rw [← Option.some.inj hp, assocFind_assocPut_other _ _ _ _ (Ne.symm hname),
      assocFind_foldPut]
    simp only [assocFind, Option.or_none]

/-- Witness for C9: in a text naming `infer` twice, the later count 3 wins
over the earlier count 1. -/
theorem C9_witness :
    assocFind [("infer", 3), ("total", 5)] "infer" =
      ((findAnalyzers
          ("found 5 defects. 1 defect found by infer. 3 defects found by infer".data.length)
          ("found 5 defects. 1 defect found by infer. 3 defects found by infer".data)).reverse.find?
        (fun p => p.2 == "infer")).map Prod.fst :=
  C9_last_match_wins "found 5 defects. 1 defect found by infer. 3 defects found by infer"
    [("infer", 3), ("total", 5)] "infer" (by rfl) (by decide)

/-! ### Claims C4 and C10 -/

/-- C4: storing a response under a fingerprint and looking it up returns
exactly the stored content; a fingerprint never stored yields absence
(`none`), never an error. -/
theorem C4_cache_roundtrip {ρ : Type} (cache : List (String × ρ)) (fp : String) (body : ρ) :
    cacheGet (cachePut cache fp body) fp = some body
    ∧ (fp ∉ cache.map Prod.fst → cacheGet cache fp = none) :=
  ⟨assocFind_assocPut_same _ _ _, fun h => assocFind_none_of_not_mem _ _ h⟩

/-- Witness for C4 at concrete inputs. -/
theorem C4_witness :
    cacheGet (cachePut ([] : List (String × Nat)) "abc" 7) "abc" = some 7
    ∧ cacheGet ([("other", 1)] : List (String × Nat)) "abc" = none :=
  ⟨(C4_cache_roundtrip [] "abc" 7).1, (C4_cache_roundtrip [("other", 1)] "abc" 7).2 (by decide)⟩

/-- C10: a body is cached only after the error code is checked to be null,
so cache well-formedness (every stored response error-free) is preserved
by `request`, and every successful `request` result — including a cache
hit, which is returned unchecked — has a null error code. -/
theorem C10_cached_responses_error_free {ρ : Type} (remote : ApiResponse ρ)
    (cache : List (String × ApiResponse ρ)) (fp : String)
    (hwf : cacheWF cache) (r : ApiResponse ρ) (cache' : List (String × ApiResponse ρ))
    (hok : request remote cache fp = .ok (r, cache')) :
    r.error_code = none ∧ cacheWF cache' := by
  unfold request at hok
  cases hc : cacheGet cache fp with
  | some body =>
    rw [hc] at hok
    simp only [Except.ok.injEq, Prod.mk.injEq] at hok
    obtain ⟨hr, hcache⟩ := hok
    subst hr; subst hcache
    exact ⟨hwf fp _ hc, hwf⟩
  | none =>
    rw [hc] at hok
    cases he : remote.error_code with
    | some e =>
      rw [he] at hok
      simp at hok
    | none =>
      rw [he] at hok
      simp only [Except.ok.injEq, Prod.mk.injEq] at hok
      obtain ⟨hr, hcache⟩ := hok
      subst hr; subst hcache
      refine ⟨he, ?_⟩
      intro fp' r' hg
      by_cases hfp : fp = fp'
      · subst hfp
        rw [cacheGet, cachePut, assocFind_assocPut_same] at hg
        rw [← Option.some.inj hg]
        exact he
      · rw [cacheGet, cachePut, assocFind_assocPut_other _ _ _ _ hfp] at hg
        exact hwf fp' r' hg

/-- Witness for C10: a fresh successful fetch on an empty cache. -/
theorem C10_witness :
    (⟨none, "", 0⟩ : ApiResponse Nat).error_code = none
    ∧ cacheWF [("k", (⟨none, "", 0⟩ : ApiResponse Nat))] :=
  C10_cached_responses_error_free ⟨none, "", 0⟩ [] "k"
    (fun fp r h => by simp [cacheGet, assocFind] at h) _ _ (by rfl)

/-! ### Feed lemmas and claims C2, C3 -/

theorem storyLe_total {α : Type} : ∀ x y : FeedStory α,
    storyLe x y = true ∨ storyLe y x = true := by
  intro x y
  simp only [storyLe, decide_eq_true_eq]
  omega

theorem storyLe_trans {α : Type} : ∀ x y z : FeedStory α,
    storyLe x y = true → storyLe y z = true → storyLe x z = true := by
  intro x y z
  simp only [storyLe, decide_eq_true_eq]
  omega

theorem isEmpty_false_of_ne_nil {α : Type} (l : List α) (h : l ≠ []) :
    l.isEmpty = false := by
  cases l with
  | nil => exact absurd rfl h
  | cons a t => rfl

/-- C3: each iteration of the feed loop requests the page at the current
cursor; an empty result set terminates the sequence; otherwise the page is
emitted sorted ascending by chronological key (payloads in that order) and
the next cursor is the first — i.e. smallest — key of the just-sorted
page. -/
theorem C3_feed_step {α : Type} (server : Option Nat → List (FeedStory α))
    (fuel : Nat) (key : Option Nat) :
    (server key = [] → feedAux server (fuel + 1) key = [])
    ∧ (server key ≠ [] →
        ∃ r rs, sortBy storyLe (server key) = r :: rs
          ∧ feedAux server (fuel + 1) key =
              (r :: rs) ++ feedAux server fuel (some r.chronologicalKey)
          ∧ (r :: rs).Perm (server key)
          ∧ List.Pairwise (fun x y => x.chronologicalKey ≤ y.chronologicalKey) (r :: rs)
          ∧ (∀ s ∈ server key, r.chronologicalKey ≤ s.chronologicalKey)) := by
  constructor
  · intro h
    simp [feedAux, h]
  · intro h
    cases hs : sortBy storyLe (server key) with
    | nil =>
      have hperm := sortBy_perm storyLe (server key)
      rw [hs] at hperm
      exact absurd hperm.symm.eq_nil h
    | cons r rs =>
      refine ⟨r, rs, rfl, ?_, ?_, ?_, ?_⟩
      · have hemp := isEmpty_false_of_ne_nil _ h
        simp only [feedAux, hemp, Bool.false_eq_true, if_false, if_neg, not_false_iff]
        rw [hs]
        rfl
      · exact hs ▸ sortBy_perm storyLe (server key)
      · have hp := sortBy_pairwise storyLe storyLe_total storyLe_trans (server key)
        rw [hs] at hp
        exact hp.imp (fun hab => by simpa [storyLe, decide_eq_true_eq] using hab)
      · intro s hsm
        simpa [storyLe, decide_eq_true_eq] using
          sortBy_head_le storyLe storyLe_total storyLe_trans (server key) r rs hs s hsm

/-- Witness for C3: both branches at concrete inputs. -/
theorem C3_witness :
    feedAux feedServerCex 3 (some 5) = []
    ∧ (∃ r rs, sortBy storyLe (feedServerCex none) = r :: rs
        ∧ feedAux feedServerCex (9 + 1) none =
            (r :: rs) ++ feedAux feedServerCex 9 (some r.chronologicalKey)
        ∧ (r :: rs).Perm (feedServerCex none)
        ∧ List.Pairwise (fun x y => x.chronologicalKey ≤ y.chronologicalKey) (r :: rs)
        ∧ (∀ s ∈ feedServerCex none, r.chronologicalKey ≤ s.chronologicalKey)) :=
  ⟨(C3_feed_step feedServerCex 2 (some 5)).1 (by rfl),
   (C3_feed_step feedServerCex 9 none).2 (by simp [feedServerCex])⟩

/-- Under the advancement discipline, the emitted keys are duplicate-free
and, below a cursor, bounded by it. -/
theorem feedKeys_bounded_nodup {α : Type} (server : Option Nat → List (FeedStory α))
    (hadv : ∀ k, ∀ s ∈ server (some k), s.chronologicalKey < k)
    (hnodup : ∀ key, ((server key).map FeedStory.chronologicalKey).Nodup) :
    ∀ (fuel : Nat) (key : Option Nat),
      (feedKeys server fuel key).Nodup
      ∧ (∀ k, key = some k → ∀ x ∈ feedKeys server fuel key, x < k) := by
  intro fuel
  induction fuel with
  | zero =>
    intro key
    constructor
    · simp [feedKeys, feedAux]
    · intro k _ x hx
      simp [feedKeys, feedAux] at hx
  | succ f ih =>
    intro key
    by_cases hne : server key = []
    · constructor
      · simp [feedKeys, feedAux, hne]
      · intro k _ x hx
        simp [feedKeys, feedAux, hne] at hx
    · have hemp := isEmpty_false_of_ne_nil _ hne
      cases hs : sortBy storyLe (server key) with
      | nil =>
        have hperm := sortBy_perm storyLe (server key)
        rw [hs] at hperm
        exact absurd hperm.symm.eq_nil hne
      | cons r rs =>
        have hstep : feedAux server (f + 1) key =
            (r :: rs) ++ feedAux server f (some r.chronologicalKey) := by
          simp only [feedAux, hemp, Bool.false_eq_true, if_false, if_neg, not_false_iff]
          rw [hs]
          rfl
        have hperm : (r :: rs).Perm (server key) := hs ▸ sortBy_perm storyLe (server key)
        have hmin : ∀ s ∈ server key, r.chronologicalKey ≤ s.chronologicalKey := by
          intro s hsm
          simpa [storyLe, decide_eq_true_eq] using
            sortBy_head_le storyLe storyLe_total storyLe_trans (server key) r rs hs s hsm
        have ihr := ih (some r.chronologicalKey)
        have hkeys : feedKeys server (f + 1) key =
            (r :: rs).map FeedStory.chronologicalKey
              ++ feedKeys server f (some r.chronologicalKey) := by
          simp [feedKeys, hstep]
        constructor
        · rw [hkeys]
          refine List.nodup_append.mpr ⟨?_, ihr.1, ?_⟩
          · exact (hperm.map FeedStory.chronologicalKey).nodup_iff.mpr (hnodup key)
          · intro a ha hb
            have hlt := ihr.2 r.chronologicalKey rfl a hb
            obtain ⟨s, hsmem, hsa⟩ := List.mem_map.mp ha
            have hle := hmin s (hperm.subset hsmem)
            subst hsa
            omega
        · intro k hk x hx
          subst hk
          rw [hkeys] at hx
          rcases List.mem_append.mp hx with hx | hx
          · obtain ⟨s, hsmem, hsa⟩ := List.mem_map.mp hx
            have := hadv k s (hperm.subset hsmem)
            subst hsa
            omega
          · have hlt := ihr.2 r.chronologicalKey rfl x hx
            have := hadv k r (hperm.subset (List.mem_cons_self r rs))
            omega

/-- C2 counterexample: `feedServerCex` obeys the advancement discipline
(every key of a requested page strictly below the requesting cursor,
distinct keys per page), yet the emitted key sequence `[8, 9, 10, 5, 6, 7]`
is not non-decreasing across the whole sequence: the paginator walks a
reverse-chronological feed backward, so keys drop at every page boundary. -/
theorem C2_not_globally_sorted_cex :
    feedKeys feedServerCex 10 none = [8, 9, 10, 5, 6, 7]
    ∧ ¬ List.Pairwise (· ≤ ·) (feedKeys feedServerCex 10 none)
    ∧ (∀ k, ∀ s ∈ feedServerCex (some k), s.chronologicalKey < k)
    ∧ (∀ key, ((feedServerCex key).map FeedStory.chronologicalKey).Nodup) := by
  refine ⟨by rfl, by decide, ?_, ?_⟩
  · intro k s hs
    by_cases hk : k = 8
    · subst hk
      simp [feedServerCex] at hs
      rcases hs with rfl | rfl | rfl <;> decide
    · simp [feedServerCex, hk] at hs
  · intro key
    cases key with
    | none => decide
    | some k =>
      by_cases hk : k = 8
      · subst hk; decide
      · simp [feedServerCex, hk]

/-- C2 amended: within each page the emission is non-decreasing (each
iteration emits exactly the ascending-sorted page), and — under the
advancement discipline — no chronological key already emitted is ever
emitted again.  Monotonicity across the whole sequence does not hold; see
the counterexample. -/
theorem C2_feed_amended {α : Type} (server : Option Nat → List (FeedStory α))
    (hadv : ∀ k, ∀ s ∈ server (some k), s.chronologicalKey < k)
    (hnodup : ∀ key, ((server key).map FeedStory.chronologicalKey).Nodup)
    (fuel : Nat) (key : Option Nat) :
    (feedKeys server fuel key).Nodup
    ∧ List.Pairwise (· ≤ ·) ((sortBy storyLe (server key)).map FeedStory.chronologicalKey)
    ∧ (server key ≠ [] →
        feedAux server (fuel + 1) key =
          sortBy storyLe (server key)
            ++ feedAux server fuel (some (headKey (sortBy storyLe (server key))))) := by
  refine ⟨(feedKeys_bounded_nodup server hadv hnodup fuel key).1, ?_, ?_⟩
  · rw [List.pairwise_map]
    exact (sortBy_pairwise storyLe storyLe_total storyLe_trans (server key)).imp
      (fun hab => by simpa [storyLe, decide_eq_true_eq] using hab)
  · intro h
    have hemp := isEmpty_false_of_ne_nil _ h
    simp [feedAux, hemp]

/-- Witness for C2's amended statement: the two-page server. -/
theorem C2_witness :
    (feedKeys feedServerCex 10 none).Nodup
    ∧ List.Pairwise (· ≤ ·)
        ((sortBy storyLe (feedServerCex none)).map FeedStory.chronologicalKey)
    ∧ (feedServerCex none ≠ [] →
        feedAux feedServerCex (10 + 1) none =
          sortBy storyLe (feedServerCex none)
            ++ feedAux feedServerCex 10 (some (headKey (sortBy storyLe (feedServerCex none))))) :=
  C2_feed_amended feedServerCex
    (by
      intro k s hs
      by_cases hk : k = 8
      · subst hk
        simp [feedServerCex] at hs
        rcases hs with rfl | rfl | rfl <;> decide
      · simp [feedServerCex, hk] at hs)
    (by
      intro key
      cases key with
      | none => decide
      | some k =>
        by_cases hk : k = 8
        · subst hk; decide
        · simp [feedServerCex, hk])
    10 none

/-! ### Comments paginator: claims C5, C6 -/

/-- C5: the per-iteration emission is exactly the filtered page — every
yielded comment comes from a transaction whose type is `"comment"` and
whose author is the target author, each transaction's comments in that
transaction's own order; all other transactions contribute nothing. -/
theorem C5_comments_filter {γ : Type} (server : Option String → TxPage γ)
    (author : String) (fuel : Nat) (after : Option String) :
    ((commentsRun server author (fuel + 1) after).1 =
        if (server after).data.isEmpty then []
        else pageEmit author (server after).data ++
          (match (server after).cursorAfter with
           | none => []
           | some a => (commentsRun server author fuel (some a)).1))
    ∧ (∀ (txs : List (Transaction γ)) (c : γ),
        c ∈ pageEmit author txs ↔
          ∃ t ∈ txs, t.type = "comment" ∧ t.authorPHID = author ∧ c ∈ t.comments) := by
  constructor
  · by_cases hemp : (server after).data.isEmpty
    · simp [commentsRun, hemp]
    · cases hc : (server after).cursorAfter with
      | none => simp [commentsRun, hemp, hc]
      | some a => simp [commentsRun, hemp, hc]
  · intro txs c
    simp only [pageEmit, List.mem_flatMap, List.mem_filter, isAuthorComment,
      Bool.and_eq_true, beq_iff_eq]
    constructor
    · rintro ⟨t, ⟨htm, htype, hauth⟩, hc⟩
      exact ⟨t, htm, htype, hauth, hc⟩
    · rintro ⟨t, htm, htype, hauth, hc⟩
      exact ⟨t, ⟨htm, htype, hauth⟩, hc⟩

/-- C6 is false as stated: a response with an empty `data` list and a
non-null `after` cursor still terminates the paginator — only one request
is ever issued and the advertised cursor `"c"` is never requested — so
the null-cursor signal is not the sole termination condition. -/
theorem C6_empty_page_terminates_cex :
    (cServerEmptyPage none).cursorAfter = some "c"
    ∧ commentsCursors cServerEmptyPage "a" 5 none = [none]
    ∧ some "c" ∉ commentsCursors cServerEmptyPage "a" 5 none := by
  exact ⟨rfl, rfl, by decide⟩

/-- C6 amended: the paginator terminates when the current page's data is
empty or when the `after` cursor is null; a null cursor terminates even
on a non-empty page, and a non-null cursor on a non-empty page is
requested next. -/
theorem C6_comments_termination {γ : Type} (server : Option String → TxPage γ)
    (author : String) (fuel : Nat) (after : Option String) :
    ((server after).data = [] →
        commentsRun server author (fuel + 1) after = ([], [after]))
    ∧ ((server after).data ≠ [] → (server after).cursorAfter = none →
        commentsRun server author (fuel + 1) after =
          (pageEmit author (server after).data, [after]))
    ∧ (∀ a, (server after).data ≠ [] → (server after).cursorAfter = some a →
        commentsRun server author (fuel + 1) after =
          (pageEmit author (server after).data ++ (commentsRun server author fuel (some a)).1,
           after :: (commentsRun server author fuel (some a)).2)) := by
  refine ⟨?_, ?_, ?_⟩
  · intro h
    simp [commentsRun, h]
  · intro h hc
    have hemp := isEmpty_false_of_ne_nil _ h
    simp [commentsRun, hemp, hc]
  · intro a h hc
    have hemp := isEmpty_false_of_ne_nil _ h
    simp [commentsRun, hemp, hc]

/-- Witness for C6's amended statement: all three branches at concrete
services. -/
theorem C6_witness :
    commentsRun cServerEmptyPage "a" (4 + 1) none = ([], [none])
    ∧ commentsRun cServerTwoPages "a" (4 + 1) (some "p2") =
        (pageEmit "a" (cServerTwoPages (some "p2")).data, [some "p2"])
    ∧ commentsRun cServerTwoPages "a" (4 + 1) none =
        (pageEmit "a" (cServerTwoPages none).data
            ++ (commentsRun cServerTwoPages "a" 4 (some "p2")).1,
         none :: (commentsRun cServerTwoPages "a" 4 (some "p2")).2) :=
  ⟨(C6_comments_termination cServerEmptyPage "a" 4 none).1 (by rfl),
   (C6_comments_termination cServerTwoPages "a" 4 (some "p2")).2.1
     (by exact List.cons_ne_nil _ _) (by rfl),
   (C6_comments_termination cServerTwoPages "a" 4 none).2.2 "p2"
     (by exact List.cons_ne_nil _ _) (by rfl)⟩

/-! ### Fingerprinting: order lemmas for the sort key -/

theorem char_toNat_inj (a b : Char) (h : a.toNat = b.toNat) : a = b :=
  Char.ext (UInt32.toNat.inj h)

theorem lexLt_asymm : ∀ (x y : List Char), lexLt x y = true → lexLt y x = true → False := by
  intro x
  induction x with
  | nil =>
    intro y hxy hyx
    cases y with
    | nil => simp [lexLt] at hxy
    | cons b bs => simp [lexLt] at hyx
  | cons a as ih =>
    intro y hxy hyx
    cases y with
    | nil => simp [lexLt] at hxy
    | cons b bs =>
      simp only [lexLt] at hxy hyx
      by_cases h1 : a.toNat < b.toNat
      · rw [if_neg (by omega : ¬ b.toNat < a.toNat), if_pos h1] at hyx
        simp at hyx
      · by_cases h2 : b.toNat < a.toNat
        · rw [if_neg h1, if_pos h2] at hxy
          simp at hxy
        · rw [if_neg h1, if_neg h2] at hxy
          rw [if_neg h2, if_neg h1] at hyx
          exact ih bs hxy hyx

theorem lexLt_trans : ∀ (x y z : List Char),
    lexLt x y = true → lexLt y z = true → lexLt x z = true := by
  intro x
  induction x with
  | nil =>
    intro y z hxy hyz
    cases y with
    | nil => simp [lexLt] at hxy
    | cons b bs =>
      cases z with
      | nil => simp [lexLt] at hyz
      | cons c cs => simp [lexLt]
  | cons a as ih =>
    intro y z hxy hyz
    cases y with
    | nil => simp [lexLt] at hxy
    | cons b bs =>
      cases z with
      | nil => simp [lexLt] at hyz
      | cons c cs =>
        simp only [lexLt] at hxy hyz ⊢
        by_cases hab : a.toNat < b.toNat
        · by_cases hbc : b.toNat < c.toNat
          · rw [if_pos (by omega : a.toNat < c.toNat)]
          · by_cases hcb : c.toNat < b.toNat
            · rw [if_neg hbc, if_pos hcb] at hyz
              simp at hyz
            · rw [if_pos (by omega : a.toNat < c.toNat)]
        · by_cases hba : b.toNat < a.toNat
          · rw [if_neg hab, if_pos hba] at hxy
            simp at hxy
          · rw [if_neg hab, if_neg hba] at hxy
            by_cases hbc : b.toNat < c.toNat
            · rw [if_pos (by omega : a.toNat < c.toNat)]
            · by_cases hcb : c.toNat < b.toNat
              · rw [if_neg hbc, if_pos hcb] at hyz
                simp at hyz
              · rw [if_neg hbc, if_neg hcb] at hyz
                rw [if_neg (by omega : ¬ a.toNat < c.toNat),
                  if_neg (by omega : ¬ c.toNat < a.toNat)]
                exact ih bs cs hxy hyz

theorem lexLt_trichotomy : ∀ (x y : List Char),
    lexLt x y = true ∨ x = y ∨ lexLt y x = true := by
  intro x
  induction x with
  | nil =>
    intro y
    cases y with
    | nil => exact Or.inr (Or.inl rfl)
    | cons b bs => exact Or.inl (by simp [lexLt])
  | cons a as ih =>
    intro y
    cases y with
    | nil => exact Or.inr (Or.inr (by simp [lexLt]))
    | cons b bs =>
      by_cases hab : a.toNat < b.toNat
      · exact Or.inl (by simp [lexLt, hab])
      · by_cases hba : b.toNat < a.toNat
        · refine Or.inr (Or.inr ?_)
          simp only [lexLt]
          rw [if_pos hba]
        · have hec : a = b := char_toNat_inj a b (by omega)
          subst hec
          rcases ih bs with h | h | h
          · refine Or.inl ?_
            simp only [lexLt]
            rw [if_neg (Nat.lt_irrefl _), if_neg (Nat.lt_irrefl _)]
            exact h
          · exact Or.inr (Or.inl (by rw [h]))
          · refine Or.inr (Or.inr ?_)
            simp only [lexLt]
            rw [if_neg (Nat.lt_irrefl _), if_neg (Nat.lt_irrefl _)]
            exact h

theorem keyLe_total : ∀ a b : String × Json, keyLe a b = true ∨ keyLe b a = true := by
  intro a b
  rcases lexLt_trichotomy a.1.data b.1.data with h | h | h
  · exact Or.inl (by simp [keyLe, h])
  · exact Or.inl (by simp [keyLe, String.ext h])
  · exact Or.inr (by simp [keyLe, h])

theorem keyLe_trans : ∀ a b c : String × Json,
    keyLe a b = true → keyLe b c = true → keyLe a c = true := by
  intro a b c hab hbc
  simp only [keyLe, Bool.or_eq_true, beq_iff_eq] at hab hbc ⊢
  rcases hab with hab | hab
  · rcases hbc with hbc | hbc
    · exact Or.inl (lexLt_trans _ _ _ hab hbc)
    · rw [← hbc]
      exact Or.inl hab
  · rcases hbc with hbc | hbc
    · rw [hab]
      exact Or.inl hbc
    · exact Or.inr (hab.trans hbc)

/-- Two lists sorted by `keyLe` with duplicate-free keys that are
permutations of each other are equal. -/
theorem sorted_nodupKeys_eq : ∀ (l₁ l₂ : List (String × Json)),
    l₁.Pairwise (keyLe · · = true) → l₂.Pairwise (keyLe · · = true) →
    (l₁.map Prod.fst).Nodup → l₁.Perm l₂ → l₁ = l₂ := by
  intro l₁
  induction l₁ with
  | nil =>
    intro l₂ _ _ _ hperm
    exact (hperm.symm.eq_nil).symm
  | cons a t ih =>
    intro l₂ hp₁ hp₂ hnd hperm
    cases l₂ with
    | nil => exact absurd hperm.eq_nil (by simp)
    | cons b u =>
      by_cases hab : a = b
      · subst hab
        have hnd' : (t.map Prod.fst).Nodup := by
          simp only [List.map_cons, List.nodup_cons] at hnd
          exact hnd.2
        rw [ih u (List.pairwise_cons.mp hp₁).2 (List.pairwise_cons.mp hp₂).2 hnd'
          hperm.cons_inv]
      · have ha : a ∈ u := by
          have hm := hperm.subset (List.mem_cons_self a t)
          rcases List.mem_cons.mp hm with h | h
          · exact absurd h hab
          · exact h
        have hb : b ∈ t := by
          have hm := hperm.symm.subset (List.mem_cons_self b u)
          rcases List.mem_cons.mp hm with h | h
          · exact absurd h.symm hab
          · exact h
        have h1 : keyLe a b = true := (List.pairwise_cons.mp hp₁).1 b hb
        have h2 : keyLe b a = true := (List.pairwise_cons.mp hp₂).1 a ha
        have hk : a.1 ≠ b.1 := by
          simp only [List.map_cons, List.nodup_cons] at hnd
          intro he
          exact hnd.1 (he ▸ List.mem_map_of_mem Prod.fst hb)
        simp only [keyLe, Bool.or_eq_true, beq_iff_eq] at h1 h2
        rcases h1 with h1 | h1
        · rcases h2 with h2 | h2
          · exact absurd h2 (fun h2 => lexLt_asymm _ _ h1 h2)
          · exact absurd h2.symm hk
        · exact absurd h1 hk

/-- Sorting by key is invariant under permutation when keys are
duplicate-free: the canonicalisation used by `sort_keys=True`. -/
theorem sortBy_keyLe_eq_of_perm (l₁ l₂ : List (String × Json)) (hperm : l₁.Perm l₂)
    (hnd : (l₁.map Prod.fst).Nodup) : sortBy keyLe l₁ = sortBy keyLe l₂ := by
  apply sorted_nodupKeys_eq
  · exact sortBy_pairwise keyLe keyLe_total keyLe_trans l₁
  · exact sortBy_pairwise keyLe keyLe_total keyLe_trans l₂
  · exact ((sortBy_perm keyLe l₁).map Prod.fst).nodup_iff.mpr hnd
  · exact (sortBy_perm keyLe l₁).trans (hperm.trans (sortBy_perm keyLe l₂).symm)

/-! ### Fingerprinting: serialiser-parser roundtrip -/

theorem parseStrBody_escChars : ∀ (s rest : List Char),
    parseStrBody (escChars s ++ '"' :: rest) = some (s, rest) := by
  intro s
  induction s with
  | nil =>
    intro rest
    show parseStrBody ('"' :: rest) = some ([], rest)
    rw [parseStrBody.eq_def]
    simp
  | cons c cs ih =>
    intro rest
    by_cases hq : c = '"'
    · subst hq
      have hesc : escChars ('"' :: cs) = '\\' :: '"' :: escChars cs := by
        simp [escChars, esc1]
      rw [hesc, List.cons_append, List.cons_append, parseStrBody.eq_def]
      simp [ih rest]
    · by_cases hb : c = '\\'
      · subst hb
        have hesc : escChars ('\\' :: cs) = '\\' :: '\\' :: escChars cs := by
          simp [escChars, esc1]
        rw [hesc, List.cons_append, List.cons_append, parseStrBody.eq_def]
        simp [ih rest]
      · have hesc : escChars (c :: cs) = c :: escChars cs := by
          simp [escChars, esc1, hq, hb]
        rw [hesc, List.cons_append, parseStrBody.eq_def]
        simp [hq, hb, ih rest]

theorem serV_head (v : Json) : ∃ c cs, serV v = c :: cs
    ∧ c ≠ ']' ∧ c ≠ '\x7d' ∧ c ≠ ',' := by
  cases v with
  | null => refine ⟨'n', _, rfl, ?_, ?_, ?_⟩ <;> decide
  | str s => refine ⟨'"', _, rfl, ?_, ?_, ?_⟩ <;> decide
  | arr xs => refine ⟨'[', _, rfl, ?_, ?_, ?_⟩ <;> decide
  | obj kvs => refine ⟨'\x7b', _, rfl, ?_, ?_, ?_⟩ <;> decide

theorem serElems_cons (x : Json) (xs : List Json) :
    ∃ t, serElems (x :: xs) = serV x ++ t := by
  cases xs with
  | nil => exact ⟨[], by simp [serElems]⟩
  | cons y ys => exact ⟨_, rfl⟩

theorem serFields_cons (kv : String × Json) (kvs : List (String × Json)) :
    ∃ t, serFields (kv :: kvs) = '"' :: t := by
  cases kvs with
  | nil =>
    refine ⟨escChars kv.1.data ++ '"' :: ':' :: ' ' :: serV kv.2, ?_⟩
    simp [serFields, strQuote]
  | cons kv' rest =>
    refine ⟨escChars kv.1.data ++
      '"' :: ':' :: ' ' :: (serV kv.2 ++ ',' :: ' ' :: serFields (kv' :: rest)), ?_⟩
    simp [serFields, strQuote]

theorem sizeV_pos (v : Json) : 1 ≤ sizeV v := by
  cases v <;> simp [sizeV]

theorem sizeElems_pos (xs : List Json) : 1 ≤ sizeElems xs := by
  cases xs with
  | nil => simp [sizeElems]
  | cons x t =>
    show 1 ≤ 1 + sizeV x + sizeElems t
    omega

theorem sizeFields_pos (kvs : List (String × Json)) : 1 ≤ sizeFields kvs := by
  cases kvs with
  | nil => simp [sizeFields]
  | cons kv t =>
    show 1 ≤ 1 + sizeV kv.2 + sizeFields t
    omega

theorem string_mk_data (s : String) : String.mk s.data = s := rfl

/-- The parser inverts the serialiser: `serV` output followed by any
remainder parses back to the serialised value, given enough fuel. -/
theorem parse_ser_roundtrip : ∀ fuel : Nat,
    (∀ (v : Json) (rest : List Char), sizeV v ≤ fuel →
      parseVal fuel (serV v ++ rest) = some (v, rest))
    ∧ (∀ (xs : List Json) (rest : List Char), xs ≠ [] → sizeElems xs ≤ fuel →
      parseElems fuel (serElems xs ++ ']' :: rest) = some (xs, rest))
    ∧ (∀ (kvs : List (String × Json)) (rest : List Char), kvs ≠ [] → sizeFields kvs ≤ fuel →
      parseFields fuel (serFields kvs ++ '\x7d' :: rest) = some (kvs, rest)) := by
  intro fuel
  induction fuel with
  | zero =>
    refine ⟨?_, ?_, ?_⟩
    · intro v rest hs
      have := sizeV_pos v
      omega
    · intro xs rest _ hs
      have := sizeElems_pos xs
      omega
    · intro kvs rest _ hs
      have := sizeFields_pos kvs
      omega
  | succ f ih =>
    obtain ⟨ihV, ihE, ihF⟩ := ih
    refine ⟨?_, ?_, ?_⟩
    · intro v rest hs
      cases v with
      | null =>
        show parseVal (f + 1) ('n' :: 'u' :: 'l' :: 'l' :: rest) = some (.null, rest)
        rw [parseVal.eq_def]
        simp [chopLit]
      | str s =>
        have hshape : serV (.str s) ++ rest = '"' :: (escChars s.data ++ '"' :: rest) := by
          show ('"' :: escChars s.data ++ ['"']) ++ rest = _
          simp
        rw [hshape, parseVal.eq_def]
        simp [parseStrBody_escChars, string_mk_data]
      | arr xs =>
        cases xs with
        | nil =>
          show parseVal (f + 1) ('[' :: ']' :: rest) = some (.arr [], rest)
          rw [parseVal.eq_def]
          simp
        | cons x xs' =>
          obtain ⟨t, ht⟩ := serElems_cons x xs'
          obtain ⟨c, cs, hc, hc1, _, _⟩ := serV_head x
          have hshape : serV (.arr (x :: xs')) ++ rest =
              '[' :: (serElems (x :: xs') ++ ']' :: rest) := by
            show ('[' :: serElems (x :: xs') ++ [']']) ++ rest = _
            simp
          have hsize : sizeElems (x :: xs') ≤ f := by
            have he : sizeV (.arr (x :: xs')) = 1 + sizeElems (x :: xs') := rfl
            omega
          rw [hshape, parseVal.eq_def]
          simp [ihE (x :: xs') rest (by simp) hsize]
          constructor
          · rw [ht, hc]
            simp [hc1]
          · rw [ht, hc]
            simp
      | obj kvs =>
        cases kvs with
        | nil =>
          show parseVal (f + 1) ('\x7b' :: '\x7d' :: rest) = some (.obj [], rest)
          rw [parseVal.eq_def]
          simp
        | cons kv kvs' =>
          obtain ⟨t, ht⟩ := serFields_cons kv kvs'
          have hshape : serV (.obj (kv :: kvs')) ++ rest =
              '\x7b' :: (serFields (kv :: kvs') ++ '\x7d' :: rest) := by
            show ('\x7b' :: serFields (kv :: kvs') ++ ['\x7d']) ++ rest = _
            simp
          have hsize : sizeFields (kv :: kvs') ≤ f := by
            have he : sizeV (.obj (kv :: kvs')) = 1 + sizeFields (kv :: kvs') := rfl
            omega
          rw [hshape, parseVal.eq_def]
          simp [ihF (kv :: kvs') rest (by simp) hsize]
          constructor
          · rw [ht]
            simp
          · rw [ht]
            simp
    · intro xs rest hne0 hs
      cases xs with
      | nil => exact absurd rfl hne0
      | cons x xs' =>
        have hsx : sizeV x ≤ f := by
          have he : sizeElems (x :: xs') = 1 + sizeV x + sizeElems xs' := rfl
          have := sizeElems_pos xs'
          omega
        cases xs' with
        | nil =>
          have hshape : serElems [x] ++ ']' :: rest = serV x ++ ']' :: rest := by
            simp [serElems]
          rw [hshape, parseElems.eq_def]
          simp [ihV x (']' :: rest) hsx]
        | cons y ys =>
          have hshape : serElems (x :: y :: ys) ++ ']' :: rest =
              serV x ++ (',' :: ' ' :: (serElems (y :: ys) ++ ']' :: rest)) := by
            show (serV x ++ ',' :: ' ' :: serElems (y :: ys)) ++ ']' :: rest = _
            simp
          have hsys : sizeElems (y :: ys) ≤ f := by
            have he : sizeElems (x :: y :: ys) = 1 + sizeV x + sizeElems (y :: ys) := rfl
            omega
          rw [hshape, parseElems.eq_def]
          simp [ihV x (',' :: ' ' :: (serElems (y :: ys) ++ ']' :: rest)) hsx,
            ihE (y :: ys) rest (by simp) hsys]
    · intro kvs rest hne0 hs
      cases kvs with
      | nil => exact absurd rfl hne0
      | cons kv kvs' =>
        obtain ⟨k, v⟩ := kv
        have hsv : sizeV v ≤ f := by
          have he : sizeFields ((k, v) :: kvs') = 1 + sizeV v + sizeFields kvs' := rfl
          have := sizeFields_pos kvs'
          omega
        cases kvs' with
        | nil =>
          have hshape : serFields [(k, v)] ++ '\x7d' :: rest =
              '"' :: (escChars k.data ++ '"' :: (':' :: ' ' :: (serV v ++ '\x7d' :: rest))) := by
            show (strQuote k ++ ':' :: ' ' :: serV v) ++ '\x7d' :: rest = _
            simp [strQuote]
          rw [hshape, parseFields.eq_def]
          simp [parseStrBody_escChars, ihV v ('\x7d' :: rest) hsv, string_mk_data]
        | cons kv' rest' =>
          have hshape : serFields ((k, v) :: kv' :: rest') ++ '\x7d' :: rest =
              '"' :: (escChars k.data ++ '"' :: (':' :: ' ' :: (serV v ++
                ',' :: ' ' :: (serFields (kv' :: rest') ++ '\x7d' :: rest)))) := by
            show ((strQuote k ++ ':' :: ' ' :: serV v) ++ ',' :: ' ' :: serFields (kv' :: rest'))
                ++ '\x7d' :: rest = _
            simp [strQuote]
          have hsr : sizeFields (kv' :: rest') ≤ f := by
            have he : sizeFields ((k, v) :: kv' :: rest')
                = 1 + sizeV v + sizeFields (kv' :: rest') := rfl
            omega
          rw [hshape, parseFields.eq_def]
          simp [parseStrBody_escChars,
            ihV v (',' :: ' ' :: (serFields (kv' :: rest') ++ '\x7d' :: rest)) hsv,
            ihF (kv' :: rest') rest (by simp) hsr, string_mk_data]

/-- The serialiser is injective. -/
theorem serV_inj (v₁ v₂ : Json) (h : serV v₁ = serV v₂) : v₁ = v₂ := by
  have h₁ := (parse_ser_roundtrip (sizeV v₁ + sizeV v₂)).1 v₁ [] (by omega)
  have h₂ := (parse_ser_roundtrip (sizeV v₁ + sizeV v₂)).1 v₂ [] (by omega)
  rw [h] at h₁
  rw [h₁] at h₂
  have h3 : (v₁, ([] : List Char)) = (v₂, []) := Option.some.inj h₂
  exact congrArg Prod.fst h3

/-! ### Fingerprinting: lookup lemmas -/

theorem assocFind_eq_of_perm {β : Type} (m₁ m₂ : List (String × β)) (hperm : m₁.Perm m₂)
    (k : String) : (m₁.map Prod.fst).Nodup → assocFind m₁ k = assocFind m₂ k := by
  induction hperm with
  | nil => intro _; rfl
  | cons x h ih =>
    intro hnd
    obtain ⟨k', v⟩ := x
    simp only [List.map_cons, List.nodup_cons] at hnd
    by_cases hk : k' = k
    · simp [assocFind, hk]
    · simp [assocFind, hk, ih hnd.2]
  | swap x y l =>
    intro hnd
    obtain ⟨kx, vx⟩ := x
    obtain ⟨ky, vy⟩ := y
    simp only [List.map_cons, List.nodup_cons, List.mem_cons] at hnd
    by_cases h1 : ky = k
    · by_cases h2 : kx = k
      · exact absurd (Or.inl (h1.trans h2.symm)) hnd.1
      · simp [assocFind, h1, h2]
    · by_cases h2 : kx = k
      · simp [assocFind, h1, h2]
      · simp [assocFind, h1, h2]
  | trans h₁ h₂ ih₁ ih₂ =>
    intro hnd
    exact (ih₁ hnd).trans (ih₂ ((h₁.map Prod.fst).nodup_iff.mp hnd))

theorem canonFields_eq_map (m : List (String × Json)) :
    canonFields m = m.map (fun kv => (kv.1, canon kv.2)) := by
  induction m with
  | nil => rfl
  | cons kv rest ih => simp [canonFields, ih]

theorem canonFields_keys (m : List (String × Json)) :
    (canonFields m).map Prod.fst = m.map Prod.fst := by
  rw [canonFields_eq_map, List.map_map]
  rfl

theorem assocFind_canonFields (m : List (String × Json)) (k : String) :
    assocFind (canonFields m) k = (assocFind m k).map canon := by
  induction m with
  | nil => rfl
  | cons kv rest ih =>
    obtain ⟨k', v⟩ := kv
    by_cases hk : k' = k
    · simp [canonFields, assocFind, hk]
    · simp [canonFields, assocFind, hk, ih]

theorem assocFind_append_cons {β : Type} (pre post : List (String × β)) (k : String) (v : β)
    (hk : k ∉ pre.map Prod.fst) : assocFind (pre ++ (k, v) :: post) k = some v := by
  induction pre with
  | nil => simp [assocFind]
  | cons kv rest ih =>
    obtain ⟨k', v'⟩ := kv
    simp only [List.map_cons, List.mem_cons] at hk
    push_neg at hk
    have hne : k' ≠ k := fun h => hk.1 h.symm
    simp [assocFind, hne, ih hk.2]

/-! ### Claim C1 -/

/-- C1: the fingerprint of `request` is a pure function of the endpoint
and the parameter values: permuting the parameter map leaves it unchanged
(for any digest function), and — for a collision-free digest, md5's
modelling assumption — changing any parameter value changes it.  Parameter
values are taken in canonical form, as a Python dict carries no field
order. -/
theorem C1_fingerprint (h : List Char → String) (token method : String)
    (p₁ p₂ : List (String × Json))
    (hnd : (p₁.map Prod.fst).Nodup)
    (hcond : "__conduit__" ∉ p₁.map Prod.fst) :
    (p₁.Perm p₂ →
      request_fingerprint h token method p₁ = request_fingerprint h token method p₂)
    ∧ (Function.Injective h →
        ∀ (k : String) (v₁ v₂ : Json) (pre post : List (String × Json)),
          p₁ = pre ++ (k, v₁) :: post → p₂ = pre ++ (k, v₂) :: post →
          canon v₁ = v₁ → canon v₂ = v₂ → v₁ ≠ v₂ →
          request_fingerprint h token method p₁ ≠ request_fingerprint h token method p₂) := by
  constructor
  · intro hperm
    have hperm' : (conduitEntry token :: p₁).Perm (conduitEntry token :: p₂) := hperm.cons _
    have hndc : ((conduitEntry token :: p₁).map Prod.fst).Nodup := by
      simp only [conduitEntry, List.map_cons, List.nodup_cons]
      exact ⟨hcond, hnd⟩
    have hperm'' : (canonFields (conduitEntry token :: p₁)).Perm
        (canonFields (conduitEntry token :: p₂)) := by
      rw [canonFields_eq_map, canonFields_eq_map]
      exact hperm'.map _
    have hndc' : ((canonFields (conduitEntry token :: p₁)).map Prod.fst).Nodup := by
      rw [canonFields_keys]
      exact hndc
    have hsort := sortBy_keyLe_eq_of_perm _ _ hperm'' hndc'
    have hcanon : canon (.obj (conduitEntry token :: p₁)) =
        canon (.obj (conduitEntry token :: p₂)) := by
      simp only [canon]
      rw [hsort]
    unfold request_fingerprint payloadChars dumps
    apply congrArg h
    apply congrArg (fun x => (BASE_URL ++ method).data ++ x)
    exact congrArg serV hcanon
  · intro hinj k v₁ v₂ pre post hp1 hp2 hv1 hv2 hvne heq
    apply hvne
    have hpay := hinj heq
    unfold payloadChars at hpay
    have hdumps : dumps (.obj (conduitEntry token :: p₁)) =
        dumps (.obj (conduitEntry token :: p₂)) := List.append_cancel_left hpay
    unfold dumps at hdumps
    have hcanon := serV_inj _ _ hdumps
    simp only [canon, Json.obj.injEq] at hcanon
    have hkmem : k ∈ p₁.map Prod.fst := by
      rw [hp1]
      simp
    have hkc : ("__conduit__" : String) ≠ k := fun hh => hcond (hh ▸ hkmem)
    have hkeys : p₂.map Prod.fst = p₁.map Prod.fst := by
      rw [hp1, hp2]
      simp
    have hnd₂ : (p₂.map Prod.fst).Nodup := by
      rw [hkeys]
      exact hnd
    have hcond₂ : "__conduit__" ∉ p₂.map Prod.fst := by
      rw [hkeys]
      exact hcond
    have hkpre : k ∉ pre.map Prod.fst := by
      have hh : ((pre ++ (k, v₁) :: post).map Prod.fst).Nodup := by
        rw [← hp1]
        exact hnd
      simp only [List.map_append, List.map_cons] at hh
      rcases List.nodup_append.mp hh with ⟨_, _, hdisj⟩
      intro hk
      exact hdisj hk (List.mem_cons_self _ _)
    have lookup : ∀ (p : List (String × Json)) (v : Json),
        (p.map Prod.fst).Nodup → "__conduit__" ∉ p.map Prod.fst →
        p = pre ++ (k, v) :: post →
        assocFind (sortBy keyLe (canonFields (conduitEntry token :: p))) k
          = some (canon v) := by
      intro p v hndp hcondp hp
      have hndcp : ((conduitEntry token :: p).map Prod.fst).Nodup := by
        simp only [conduitEntry, List.map_cons, List.nodup_cons]
        exact ⟨hcondp, hndp⟩
      have hndcf : ((canonFields (conduitEntry token :: p)).map Prod.fst).Nodup := by
        rw [canonFields_keys]
        exact hndcp
      have hps : (sortBy keyLe (canonFields (conduitEntry token :: p))).Perm
          (canonFields (conduitEntry token :: p)) := sortBy_perm _ _
      have hnds : ((sortBy keyLe (canonFields (conduitEntry token :: p))).map Prod.fst).Nodup :=
        (hps.map Prod.fst).nodup_iff.mpr hndcf
      rw [assocFind_eq_of_perm _ _ hps k hnds, assocFind_canonFields]
      have hfind : assocFind (conduitEntry token :: p) k = some v := by
        show assocFind (("__conduit__", Json.obj [("token", Json.str token)]) :: p) k = some v
        rw [assocFind, if_neg hkc, hp]
        exact assocFind_append_cons pre post k v hkpre
      rw [hfind]
      rfl
    have l₁ := lookup p₁ v₁ hnd hcond hp1
    have l₂ := lookup p₂ v₂ hnd₂ hcond₂ hp2
    rw [hcanon, l₂] at l₁
    have hvv := Option.some.inj l₁
    rw [hv1, hv2] at hvv
    exact hvv.symm

/-- Witness for C1: a two-entry parameter map — reordering keeps the
fingerprint, changing the value at `"a"` changes it (digest instantiated
with an injective function). -/
theorem C1_witness :
    request_fingerprint (fun cs => String.mk cs) "api-x" "feed.query"
        [("a", Json.str "x"), ("b", Json.null)] =
      request_fingerprint (fun cs => String.mk cs) "api-x" "feed.query"
        [("b", Json.null), ("a", Json.str "x")]
    ∧ request_fingerprint (fun cs => String.mk cs) "api-x" "feed.query"
        [("a", Json.str "x"), ("b", Json.null)] ≠
      request_fingerprint (fun cs => String.mk cs) "api-x" "feed.query"
        [("a", Json.str "y"), ("b", Json.null)] := by
  constructor
  · exact (C1_fingerprint (fun cs => String.mk cs) "api-x" "feed.query"
      [("a", Json.str "x"), ("b", Json.null)] [("b", Json.null), ("a", Json.str "x")]
      (by decide) (by decide)).1 (List.Perm.swap _ _ _)
  · exact (C1_fingerprint (fun cs => String.mk cs) "api-x" "feed.query"
      [("a", Json.str "x"), ("b", Json.null)] [("a", Json.str "y"), ("b", Json.null)]
      (by decide) (by decide)).2
      (fun a b hab => congrArg String.data hab)
      "a" (Json.str "x") (Json.str "y") [] [("b", Json.null)]
      rfl rfl rfl rfl (by simp)

end PhabStats
